import Mathlib

/-!
Verification of the Forseti external-project-access core: the rules engine
(`external_project_access_rules_engine.py`) and the scanner orchestration
(`external_project_access_scanner.py`).  Python code is embedded shallowly:
dicts that are iterated in insertion order become association lists, Python
exceptions become `Except` results, and the dynamically-typed
`rule_ancestor` slot of the `RuleViolation` named tuple becomes a sum type.
-/

namespace Forseti

/-- Resource types used by the scanner and the rules engine.  The gcp_type
helpers are not part of the shown sources; the spec's data model gives the
three node kinds organization, folder and project. -/
inductive ResourceType where
  | organization : ResourceType
  | folder : ResourceType
  | project : ResourceType
deriving DecidableEq, Repr

/-- Modelled from the spec: an `AncestryResource` is an immutable typed node
with an identity; two resources are equal exactly when type and id agree
(the gcp_type `Resource.__eq__` is not under src/). -/
structure Resource where
  rtype : ResourceType
  rid : String
deriving DecidableEq, Repr

/-- Modelled from the spec: the display-name fragment for a resource type,
as in the spec's example name `organization/567890`. -/
def typeName : ResourceType → String
  | .organization => "organization"
  | .folder => "folder"
  | .project => "project"

/-- Modelled from the spec: `name` is a display/full-path identifier derived
from the type and id, e.g. `organization/567890`. -/
def Resource.name (r : Resource) : String :=
  typeName r.rtype ++ "/" ++ r.rid

/-- Modelled from the spec: `resource_util.create_resource(resource_id,
resource_type)` builds the typed node from a type string
(`organization`, `folder`, `project`) and an id (gcp_type helpers are not
under src/). -/
def typeOfString (s : String) : ResourceType :=
  if s = "organization" then .organization
  else if s = "folder" then .folder
  else .project

/-- Modelled from the spec: `resource_util.create_resource`. -/
def create_resource (resource_id : String) (resource_type : String) : Resource :=
  ⟨typeOfString resource_type, resource_id⟩

/-- Modelled from the spec: `resource_util.type_from_name` maps an ancestor
string of the form `organizations/...` or `folders/...` to the type string
used by `create_resource`. -/
def type_from_name (ancestor : String) : String :=
  if "organizations/".data.isPrefixOf ancestor.data then "organization"
  else if "folders/".data.isPrefixOf ancestor.data then "folder"
  else "project"

/-- One or more ASCII digits: Python `\d+` for a non-unicode pattern. -/
def allDigits (cs : List Char) : Bool :=
  !cs.isEmpty && cs.all Char.isDigit

/-- Whole-string match of the regex alternation
`organizations/\d+` or `folders/\d+` (the spec's reading: anchored,
whole-string). -/
def wholeStringMatch (s : String) : Bool :=
  ("organizations/".data.isPrefixOf s.data && allDigits (s.data.drop 14)) ||
  ("folders/".data.isPrefixOf s.data && allDigits (s.data.drop 8))

/-- What `ExternalProjectAccessRuleBook.ancestor_pattern.match` accepts:
the pattern is `^organizations/\d+$|^folders/\d+$`, and Python `$` (without
re.MULTILINE) matches at the end of the string or just before a single
newline at the end of the string. -/
def ancestorPatternMatch (s : String) : Bool :=
  wholeStringMatch s ||
  (s.data.getLast? == some '\n' && wholeStringMatch ⟨s.data.dropLast⟩)

/-- Error messages of `InvalidRulesSchemaError` raised by
`validate_ancestor`, with the rule index formatted in. -/
def missingAncestorMsg (rule_index : Nat) : String :=
  "Missing ancestor in rule " ++ toString rule_index

def badAncestorMsg (rule_index : Nat) : String :=
  "Ancestor in rule " ++ toString rule_index ++
    " must start with \"organization/\" or \"folder/\""

/-- `ExternalProjectAccessRuleBook.validate_ancestor`: raise
`InvalidRulesSchemaError` when the ancestor is missing or empty
(`not ancestor or len(ancestor) < 1`), or when the anchored pattern does
not match. -/
def validate_ancestor (ancestor : Option String) (rule_index : Nat) :
    Except String Unit :=
  match ancestor with
  | none => .error (missingAncestorMsg rule_index)
  | some a =>
      if a = "" then .error (missingAncestorMsg rule_index)
      else if ancestorPatternMatch a then .ok ()
      else .error (badAncestorMsg rule_index)

/-- A raw rule definition as deserialized from the rules file:
`rule_def.get('name')` and `rule_def.get('ancestor', None)`. -/
structure RuleDef where
  name : Option String
  ancestor : Option String
deriving DecidableEq, Repr

/-- Python `str.split` on a single separator character. -/
def splitOnChar (c : Char) : List Char → List (List Char)
  | [] => [[]]
  | x :: xs =>
      let r := splitOnChar c xs
      if x = c then [] :: r
      else
        match r with
        | g :: gs => (x :: g) :: gs
        | [] => [[x]]

/-- `ExternalProjectAccessRuleBook.process_rule`: validate the ancestor,
then build the resource from `ancestor.split('/')[1]` and
`type_from_name(ancestor)`. -/
def process_rule (rule_def : RuleDef) (rule_index : Nat) :
    Except String Resource := do
  validate_ancestor rule_def.ancestor rule_index
  match rule_def.ancestor with
  | some a =>
      pure (create_resource ⟨(splitOnChar '/' a.data).getD 1 []⟩
        (type_from_name a))
  | none => throw "IndexError"

/-- `Rule.__init__`: the rule keeps the rule name, the rule index and (in
the field the source calls `rules`) the ancestor resource. -/
structure Rule where
  rule_name : Option String
  rule_index : Nat
  rules : Resource
deriving DecidableEq, Repr

/-- A dynamically typed Python attribute value: the `rule_ancestor` slot of
the `RuleViolation` named tuple holds whatever the producer put there — a
plain string in the rules engine, while the scanner's flattening expects an
object with a `name` attribute. -/
inductive AttrVal where
  | vstr : String → AttrVal
  | vres : Resource → AttrVal
deriving DecidableEq, Repr

/-- Accessing `.name` on an attribute value: succeeds on a resource,
raises `AttributeError` on a plain string. -/
def AttrVal.nameAttr : AttrVal → Except String String
  | .vres r => .ok r.name
  | .vstr _ => .error "AttributeError: str object has no attribute name"

/-- The `RuleViolation` named tuple of the rules engine. -/
structure RuleViolation where
  resource_type : String
  resource_id : String
  rule_name : Option String
  rule_index : Nat
  rule_ancestor : AttrVal
  full_name : String
  violation_type : String
  member : String
  resource_data : String
deriving DecidableEq, Repr

/-- `Rule.policy_violation`: a generator yielding one `RuleViolation`.
Materializing it evaluates `ancestry[0]`, which raises `IndexError` on an
empty ancestry; `rule_ancestor` is set to `self.rules.name`, the ancestor
resource's name string; `resource_data` is the comma-join of all chain
element names. -/
def Rule.policy_violation (rule : Rule) (user_email : String)
    (ancestry : List Resource) : Except String (List RuleViolation) :=
  match ancestry with
  | [] => .error "IndexError: list index out of range"
  | leaf :: _ =>
      .ok [{ resource_type := "project"
             resource_id := leaf.rid
             rule_name := rule.rule_name
             rule_index := rule.rule_index
             rule_ancestor := .vstr rule.rules.name
             full_name := leaf.name
             violation_type := "EXTERNAL_PROJECT_ACCESS_VIOLATION"
             member := user_email
             resource_data :=
               String.intercalate "," (ancestry.map Resource.name) }]

/-- The `resource_rules_map` of `ExternalProjectAccessRuleBook`: a mapping
from ancestor resource to rule, kept as an association list in insertion
order. -/
abbrev Book := List (Resource × Rule)

/-- `ExternalProjectAccessRuleBook.add_rule`: process the definition, then
insert the rule keyed by its ancestor only when that ancestor is not
already a key (`if ancestor not in self.resource_rules_map.keys()`). -/
def add_rule (book : Book) (rule_def : RuleDef) (rule_index : Nat) :
    Except String Book := do
  let ancestor ← process_rule rule_def rule_index
  let rule : Rule := ⟨rule_def.name, rule_index, ancestor⟩
  if (book.map Prod.fst).contains ancestor then
    pure book
  else
    pure (book ++ [(ancestor, rule)])

/-- The enumeration loop of `ExternalProjectAccessRuleBook.add_rules`:
definitions are processed in order with indices assigned by `enumerate`,
and the first schema error aborts construction. -/
def add_rules_from (book : Book) (i : Nat) :
    List RuleDef → Except String Book
  | [] => .ok book
  | d :: ds => do
      let b ← add_rule book d i
      add_rules_from b (i + 1) ds

/-- `ExternalProjectAccessRuleBook.add_rules` starting from the empty map
built by `__init__`. -/
def add_rules (rule_defs : List RuleDef) : Except String Book :=
  add_rules_from [] 0 rule_defs

/-- The list comprehension of `find_policy_violations`: the rules whose
ancestor is not anywhere in the ancestry chain
(`if ancestor not in project_ancestry`). -/
def rules_violated (book : Book) (project_ancestry : List Resource) :
    List Rule :=
  (book.filter (fun p => !(project_ancestry.contains p.1))).map Prod.snd

/-- Materializing the chained generators returned by
`find_policy_violations`: each violated rule's `policy_violation`
generator is consumed in turn. -/
def materializeViolations (rules : List Rule) (user_email : String)
    (project_ancestry : List Resource) : Except String (List RuleViolation) :=
  match rules with
  | [] => .ok []
  | r :: rs => do
      let v ← r.policy_violation user_email project_ancestry
      let vs ← materializeViolations rs user_email project_ancestry
      pure (v ++ vs)

/-- The evaluation path of
`ExternalProjectAccessRulesEngine.find_policy_violations` once a rule book
is present and no rebuild is forced. -/
def find_policy_violations_book (book : Book) (user_email : String)
    (project_ancestry : List Resource) : Except String (List RuleViolation) :=
  materializeViolations (rules_violated book project_ancestry) user_email
    project_ancestry

/-- `ExternalProjectAccessRulesEngine`: holds `self.rule_book`, `None`
until `build_rule_book` has run. -/
structure Engine where
  rule_book : Option Book
deriving DecidableEq, Repr

/-- The arity error Python raises for `self.build_rule_book()`:
`build_rule_book(self, global_configs)` requires the `global_configs`
argument, and the call inside `find_policy_violations` passes none. -/
def buildRuleBookArityError : String :=
  "TypeError: build_rule_book() takes exactly 2 arguments (1 given)"

/-- `ExternalProjectAccessRulesEngine.find_policy_violations`: when
`self.rule_book is None or force_rebuild`, the code calls
`self.build_rule_book()` without the required `global_configs` argument
and so raises `TypeError`; otherwise the existing rule book is evaluated. -/
def Engine.find_policy_violations (e : Engine) (user_email : String)
    (project_ancestry : List Resource) (force_rebuild : Bool) :
    Except String (List RuleViolation) :=
  match e.rule_book, force_rebuild with
  | some book, false => find_policy_violations_book book user_email project_ancestry
  | _, _ => .error buildRuleBookArityError

/-- The nested `violation_data` dict built by `_flatten_violations`. -/
structure ViolationData where
  full_name : String
  member : String
  rule_ancestor : String
deriving DecidableEq, Repr

/-- One flattened record yielded by `_flatten_violations`. -/
structure FlatRecord where
  resource_id : String
  resource_type : String
  full_name : String
  rule_index : Nat
  rule_name : Option String
  violation_type : String
  violation_data : ViolationData
  resource_data : String
deriving DecidableEq, Repr

/-- The body of `ExternalProjectAccessScanner._flatten_violations` for a
single violation: it evaluates `violation.rule_ancestor.name` while
building `violation_data`, then yields the flat record. -/
def flatten_violation (v : RuleViolation) : Except String FlatRecord := do
  let ancestorName ← v.rule_ancestor.nameAttr
  pure { resource_id := v.resource_id
         resource_type := v.resource_type
         full_name := v.full_name
         rule_index := v.rule_index
         rule_name := v.rule_name
         violation_type := v.violation_type
         violation_data :=
           { full_name := v.full_name
             member := v.member
             rule_ancestor := ancestorName }
         resource_data := v.resource_data }

/-- `ExternalProjectAccessScanner._flatten_violations` over a list of
violations, consumed in order; the first raising element aborts. -/
def flatten_violations : List RuleViolation → Except String (List FlatRecord)
  | [] => .ok []
  | v :: vs => do
      let r ← flatten_violation v
      let rs ← flatten_violations vs
      pure (r :: rs)

/-- The exception kinds distinguished by `_retrieve`: `RefreshError` from
credential refresh, `KeyError` from a projects response without the
expected keys, and anything else (uncaught). -/
inductive PyErr where
  | refreshError : PyErr
  | keyError : PyErr
  | otherError : String → PyErr
deriving DecidableEq, Repr

/-- A raw ancestry descriptor as returned by
`crm_client.get_project_ancestry`: the `resourceId` dict with `id` and
`type`. -/
structure RawResource where
  rid : String
  rtype : String
deriving DecidableEq, Repr

/-- The remote collaborators used by `_project_ancestries_by_user`, pure
per scan run: `list_projects` stands for `get_delegated_credential`
followed by `crm_client.get_projects()` flattened to the project ids
(raising `RefreshError` on bad delegated credentials and `KeyError` when
a response lacks the expected keys), and `get_ancestry` stands for
`crm_client.get_project_ancestry`. -/
structure LookupEnv where
  list_projects : String → Except PyErr (List String)
  get_ancestry : String → Except PyErr (List RawResource)

/-- The scanner-owned `self._ancestries` dict, an association list from
project id to ancestry chain in insertion order. -/
abbrev Cache := List (String × List Resource)

/-- The scanner's mutable retrieval state: the ancestry cache plus a log
of the project ids for which `get_project_ancestry` was actually
invoked. -/
structure ScanState where
  ancestries : Cache
  lookups : List String
deriving DecidableEq, Repr

/-- The state at scanner construction: `self._ancestries = dict()`. -/
def initState : ScanState := ⟨[], []⟩

/-- `project_id not in self._ancestries.keys()` and the read
`self._ancestries[project_id]`. -/
def lookupCache : Cache → String → Option (List Resource)
  | [], _ => none
  | (k, v) :: rest, pid => if k = pid then some v else lookupCache rest pid

/-- Overwrite the chain stored for a project id already present in the
cache (the element-wise `append` loop, completed). -/
def setCache : Cache → String → List Resource → Cache
  | [], _, _ => []
  | (k, v) :: rest, pid, chain =>
      if k = pid then (k, chain) :: rest else (k, v) :: setCache rest pid chain

/-- Translate one raw ancestry descriptor, as the loop body does:
`create_resource(resource['resourceId']['id'],
resource['resourceId']['type'])`. -/
def translateRaw (r : RawResource) : Resource :=
  create_resource r.rid r.rtype

/-- The per-project body of the loop in `_project_ancestries_by_user`: on a
cache miss the entry is created empty (`self._ancestries[project_id] = []`)
before `get_project_ancestry` is called, so a raising fetch leaves the
empty entry behind; on success the translated chain replaces it; either
way the (possibly just-inserted) cached chain is what the caller sees. -/
def resolveProject (env : LookupEnv) (st : ScanState) (pid : String) :
    Except PyErr (List Resource) × ScanState :=
  match lookupCache st.ancestries pid with
  | some chain => (.ok chain, st)
  | none =>
      let st1 : ScanState :=
        ⟨st.ancestries ++ [(pid, [])], st.lookups ++ [pid]⟩
      match env.get_ancestry pid with
      | .error e => (.error e, st1)
      | .ok raws =>
          let chain := raws.map translateRaw
          (.ok chain, ⟨setCache st1.ancestries pid chain, st1.lookups⟩)

/-- The loop of `_project_ancestries_by_user` over all listed project ids,
appending each resolved chain to `ancestries`; an exception propagates
with whatever cache mutations already happened. -/
def resolveProjects (env : LookupEnv) (st : ScanState) :
    List String → Except PyErr (List (List Resource)) × ScanState
  | [] => (.ok [], st)
  | pid :: rest =>
      match resolveProject env st pid with
      | (.error e, st') => (.error e, st')
      | (.ok chain, st') =>
          match resolveProjects env st' rest with
          | (.error e, st2) => (.error e, st2)
          | (.ok chains, st2) => (.ok (chain :: chains), st2)

/-- `ExternalProjectAccessScanner._project_ancestries_by_user`: list the
user's project ids, then resolve each through the shared cache. -/
def project_ancestries_by_user (env : LookupEnv) (user_email : String)
    (st : ScanState) : Except PyErr (List (List Resource)) × ScanState :=
  match env.list_projects user_email with
  | .error e => (.error e, st)
  | .ok pids => resolveProjects env st pids

/-- The per-user result map built by `_retrieve`
(`project_ancestries_by_user[user_email] = ...`), with Python dict
assignment semantics: overwrite an existing key, otherwise append. -/
def insertEntry (m : List (String × List (List Resource))) (k : String)
    (v : List (List Resource)) : List (String × List (List Resource)) :=
  match m with
  | [] => [(k, v)]
  | (k', v') :: rest =>
      if k' = k then (k, v) :: rest else (k', v') :: insertEntry rest k v

/-- The user loop of `_retrieve`: `KeyError` (user without projects) and
`RefreshError` (credential refresh failure) are caught and the user is
skipped; any other exception propagates and aborts retrieval. -/
def retrieve_go (env : LookupEnv) (st : ScanState)
    (acc : List (String × List (List Resource))) :
    List String →
      Except PyErr (List (String × List (List Resource))) × ScanState
  | [] => (.ok acc, st)
  | u :: rest =>
      match project_ancestries_by_user env u st with
      | (.ok chains, st') => retrieve_go env st' (insertEntry acc u chains) rest
      | (.error .keyError, st') => retrieve_go env st' acc rest
      | (.error .refreshError, st') => retrieve_go env st' acc rest
      | (.error (.otherError m), st') => (.error (.otherError m), st')

/-- `ExternalProjectAccessScanner._retrieve` for a run of the scanner, the
inventory iteration supplying the identities in order and the cache
starting empty. -/
def retrieve (env : LookupEnv) (users : List String) :
    Except PyErr (List (String × List (List Resource))) × ScanState :=
  retrieve_go env initState [] users

/-- The chain a project resolves to under a fixed environment: the
translated remote ancestry on success, and the empty chain left in the
cache when the remote fetch raises. -/
def resolvedChain (env : LookupEnv) (pid : String) : List Resource :=
  match env.get_ancestry pid with
  | .ok raws => raws.map translateRaw
  | .error _ => []

/-! ### Helper lemmas about violation materialization -/

/-- The single violation `Rule.policy_violation` yields on a non-empty
chain, as an explicit record (proof helper; equal by `rfl` to the
generator's output). -/
def yieldedViolation (rule : Rule) (u : String) (leaf : Resource)
    (chain : List Resource) : RuleViolation :=
  { resource_type := "project"
    resource_id := leaf.rid
    rule_name := rule.rule_name
    rule_index := rule.rule_index
    rule_ancestor := .vstr rule.rules.name
    full_name := leaf.name
    violation_type := "EXTERNAL_PROJECT_ACCESS_VIOLATION"
    member := u
    resource_data := String.intercalate "," (chain.map Resource.name) }

theorem policy_violation_cons (rule : Rule) (u : String) (leaf : Resource)
    (rest : List Resource) :
    rule.policy_violation u (leaf :: rest) =
      .ok [yieldedViolation rule u leaf (leaf :: rest)] := rfl

/-- On a non-empty chain, materializing yields exactly one violation per
rule, in rule order. -/
theorem materializeViolations_eq_map (rules : List Rule) (u : String)
    (leaf : Resource) (rest : List Resource) :
    materializeViolations rules u (leaf :: rest) =
      .ok (rules.map (fun r => yieldedViolation r u leaf (leaf :: rest))) := by
  induction rules with
  | nil => rfl
  | cons r rs ih =>
      simp only [materializeViolations, policy_violation_cons, ih, List.map_cons]
      rfl

/-- On an empty chain, materializing a non-empty rule list raises the
IndexError from `ancestry[0]`. -/
theorem materializeViolations_nil_chain (r : Rule) (rs : List Rule)
    (u : String) :
    materializeViolations (r :: rs) u [] =
      .error "IndexError: list index out of range" := rfl

/-! ### Helper lemmas about the ancestry cache -/

theorem lookupCache_none_iff (c : Cache) (pid : String) :
    lookupCache c pid = none ↔ pid ∉ c.map Prod.fst := by
  induction c with
  | nil => simp [lookupCache]
  | cons kv rest ih =>
      obtain ⟨k, v⟩ := kv
      by_cases hk : k = pid
      · subst hk
        simp [lookupCache]
      · simp only [lookupCache, if_neg hk, ih, List.map_cons, List.mem_cons]
        constructor
        · rintro hni (hm | hm)
          · exact hk hm.symm
          · exact hni hm
        · intro hni hm
          exact hni (Or.inr hm)

theorem lookupCache_some_mem (c : Cache) (pid : String) (ch : List Resource)
    (h : lookupCache c pid = some ch) : (pid, ch) ∈ c := by
  induction c with
  | nil => cases h
  | cons kv rest ih =>
      obtain ⟨k, v⟩ := kv
      by_cases hk : k = pid
      · subst hk
        rw [lookupCache, if_pos rfl] at h
        injection h with h
        subst h
        exact List.mem_cons_self _ _
      · rw [lookupCache, if_neg hk] at h
        exact List.mem_cons_of_mem _ (ih h)

theorem lookupCache_append_self (c : Cache) (pid : String) (x : List Resource)
    (h : lookupCache c pid = none) :
    lookupCache (c ++ [(pid, x)]) pid = some x := by
  induction c with
  | nil => simp [lookupCache]
  | cons kv rest ih =>
      obtain ⟨k, v⟩ := kv
      by_cases hk : k = pid
      · subst hk
        rw [lookupCache, if_pos rfl] at h
        cases h
      · rw [lookupCache, if_neg hk] at h
        simpa [lookupCache, hk] using ih h

theorem setCache_append_self (c : Cache) (pid : String) (x ch : List Resource)
    (h : pid ∉ c.map Prod.fst) :
    setCache (c ++ [(pid, x)]) pid ch = c ++ [(pid, ch)] := by
  induction c with
  | nil => simp [setCache]
  | cons kv rest ih =>
      obtain ⟨k, v⟩ := kv
      have hk : ¬(k = pid) := fun hkp => h (by simp [hkp])
      have h' : pid ∉ rest.map Prod.fst := fun hm => h (by simp [hm])
      simp [setCache, hk, ih h']

/-! ### The run-scoped cache invariant -/

/-- Every cache entry holds exactly the chain the fixed environment
resolves its project to (empty when the remote fetch raises). -/
def CacheGood (env : LookupEnv) (st : ScanState) : Prop :=
  ∀ p ch, (p, ch) ∈ st.ancestries → ch = resolvedChain env p

/-- The retrieval-state invariant: the lookup log is exactly the list of
cache keys (one remote call per cached project), keys are pairwise
distinct, and every cached chain is the resolved one. -/
def StInv (env : LookupEnv) (st : ScanState) : Prop :=
  st.lookups = st.ancestries.map Prod.fst ∧
  (st.ancestries.map Prod.fst).Nodup ∧
  CacheGood env st

theorem stInv_init (env : LookupEnv) : StInv env initState :=
  ⟨rfl, List.nodup_nil, fun _ _ h => nomatch h⟩

/-- One cache-mediated resolution preserves the invariant, and a
successful resolution always returns the environment-determined chain. -/
theorem resolveProject_sound (env : LookupEnv) (st : ScanState)
    (pid : String) (hinv : StInv env st) :
    StInv env (resolveProject env st pid).2 ∧
    (∀ ch, (resolveProject env st pid).1 = .ok ch →
      ch = resolvedChain env pid) := by
  obtain ⟨hl, hnd, hg⟩ := hinv
  cases hmiss : lookupCache st.ancestries pid with
  | some ch0 =>
      simp only [resolveProject, hmiss]
      refine ⟨⟨hl, hnd, hg⟩, ?_⟩
      intro ch hch
      injection hch with hch
      subst hch
      exact hg pid ch0 (lookupCache_some_mem _ _ _ hmiss)
  | none =>
      have hnotin : pid ∉ st.ancestries.map Prod.fst :=
        (lookupCache_none_iff _ _).mp hmiss
      cases hga : env.get_ancestry pid with
      | error e =>
          simp only [resolveProject, hmiss, hga]
          refine ⟨⟨?_, ?_, ?_⟩, fun ch hch => nomatch hch⟩
          · simp [hl]
          · simp [List.nodup_append, hnd, hnotin]
          · intro p ch hm
            rcases List.mem_append.mp hm with hm' | hm'
            · exact hg p ch hm'
            · obtain ⟨h1, h2⟩ := Prod.mk.injEq .. ▸ List.mem_singleton.mp hm'
              subst h1
              subst h2
              simp [resolvedChain, hga]
      | ok raws =>
          simp only [resolveProject, hmiss, hga]
          rw [setCache_append_self st.ancestries pid [] (raws.map translateRaw)
            hnotin]
          refine ⟨⟨?_, ?_, ?_⟩, ?_⟩
          · simp [hl]
          · simp [List.nodup_append, hnd, hnotin]
          · intro p ch hm
            rcases List.mem_append.mp hm with hm' | hm'
            · exact hg p ch hm'
            · obtain ⟨h1, h2⟩ := Prod.mk.injEq .. ▸ List.mem_singleton.mp hm'
              subst h1
              subst h2
              simp [resolvedChain, hga]
          · intro ch hch
            injection hch with hch
            subst hch
            simp [resolvedChain, hga]

/-- The resolution loop preserves the invariant; when it succeeds, the
chains are exactly the environment-determined ones, in project order. -/
theorem resolveProjects_sound (env : LookupEnv) (pids : List String) :
    ∀ st, StInv env st →
      StInv env (resolveProjects env st pids).2 ∧
      (∀ chains, (resolveProjects env st pids).1 = .ok chains →
        chains = pids.map (resolvedChain env)) := by
  induction pids with
  | nil =>
      intro st hinv
      exact ⟨hinv, fun chains hch => by
        injection hch with hch
        simp [← hch]⟩
  | cons pid rest ih =>
      intro st hinv
      obtain ⟨hinv1, hres1⟩ := resolveProject_sound env st pid hinv
      cases h1 : resolveProject env st pid with
      | mk r1 st1 =>
          rw [h1] at hinv1 hres1
          cases r1 with
          | error e =>
              simp only [resolveProjects, h1]
              exact ⟨hinv1, fun chains hch => nomatch hch⟩
          | ok chain =>
              obtain ⟨hinv2, hres2⟩ := ih st1 hinv1
              cases h2 : resolveProjects env st1 rest with
              | mk r2 st2 =>
                  rw [h2] at hinv2 hres2
                  cases r2 with
                  | error e =>
                      simp only [resolveProjects, h1, h2]
                      exact ⟨hinv2, fun chains hch => nomatch hch⟩
                  | ok chains2 =>
                      simp only [resolveProjects, h1, h2]
                      refine ⟨hinv2, ?_⟩
                      intro chains hch
                      injection hch with hch
                      subst hch
                      rw [List.map_cons, hres1 chain rfl, hres2 chains2 rfl]

/-- When every listed project's remote fetch succeeds, the resolution loop
succeeds from any state. -/
theorem resolveProjects_ok (env : LookupEnv) (pids : List String)
    (hok : ∀ p ∈ pids, ∃ raws, env.get_ancestry p = .ok raws) :
    ∀ st, ∃ chains, (resolveProjects env st pids).1 = .ok chains := by
  induction pids with
  | nil => exact fun st => ⟨[], rfl⟩
  | cons pid rest ih =>
      intro st
      have hstep : ∃ ch st1, resolveProject env st pid = (.ok ch, st1) := by
        cases hmiss : lookupCache st.ancestries pid with
        | some ch0 => exact ⟨ch0, st, by simp [resolveProject, hmiss]⟩
        | none =>
            obtain ⟨raws, hraws⟩ := hok pid (List.mem_cons_self _ _)
            exact ⟨raws.map translateRaw,
              ⟨setCache (st.ancestries ++ [(pid, [])]) pid
                (raws.map translateRaw), st.lookups ++ [pid]⟩,
              by simp [resolveProject, hmiss, hraws]⟩
      obtain ⟨ch, st1, hstep⟩ := hstep
      obtain ⟨chains, hchains⟩ :=
        ih (fun p hp => hok p (List.mem_cons_of_mem _ hp)) st1
      cases h2 : resolveProjects env st1 rest with
      | mk r2 st2 =>
          rw [h2] at hchains
          cases r2 with
          | error e => cases hchains
          | ok cs =>
              exact ⟨ch :: cs, by simp [resolveProjects, hstep, h2]⟩

/-! ### Helper lemmas about the per-user retrieval loop -/

theorem mem_insertEntry (m : List (String × List (List Resource)))
    (k : String) (v : List (List Resource)) (u : String)
    (chains : List (List Resource))
    (h : (u, chains) ∈ insertEntry m k v) :
    (u = k ∧ chains = v) ∨ (u, chains) ∈ m := by
  induction m with
  | nil =>
      rcases List.mem_singleton.mp h with h'
      exact .inl ⟨congrArg Prod.fst h', congrArg Prod.snd h'⟩
  | cons kv rest ih =>
      obtain ⟨k', v'⟩ := kv
      by_cases hk : k' = k
      · subst hk
        rw [insertEntry, if_pos rfl] at h
        rcases List.mem_cons.mp h with h' | h'
        · exact .inl ⟨congrArg Prod.fst h', congrArg Prod.snd h'⟩
        · exact .inr (List.mem_cons_of_mem _ h')
      · rw [insertEntry, if_neg hk] at h
        rcases List.mem_cons.mp h with h' | h'
        · exact .inr (List.mem_cons.mpr (.inl h'))
        · rcases ih h' with h'' | h''
          · exact .inl h''
          · exact .inr (List.mem_cons_of_mem _ h'')

theorem mem_keys_insertEntry (m : List (String × List (List Resource)))
    (k : String) (v : List (List Resource)) (u : String) :
    u ∈ (insertEntry m k v).map Prod.fst ↔
      u = k ∨ u ∈ m.map Prod.fst := by
  induction m with
  | nil => simp [insertEntry]
  | cons kv rest ih =>
      obtain ⟨k', v'⟩ := kv
      by_cases hk : k' = k
      · subst hk
        simp [insertEntry]
      · simp only [insertEntry, if_neg hk, List.map_cons, List.mem_cons, ih]
        constructor
        · rintro (h | h)
          · exact .inr (.inl h)
          · rcases h with h | h
            · exact .inl h
            · exact .inr (.inr h)
        · rintro (h | h)
          · exact .inr (.inl h)
          · rcases h with h | h
            · exact .inl h
            · exact .inr (.inr h)

/-- Every accumulated per-user entry holds the environment-determined
chains of the user's listed projects. -/
def AccGood (env : LookupEnv)
    (acc : List (String × List (List Resource))) : Prop :=
  ∀ u chains, (u, chains) ∈ acc →
    ∃ pids, env.list_projects u = .ok pids ∧
      chains = pids.map (resolvedChain env)

/-- A user whose project listing and every listed project's remote fetch
succeed. -/
def FullyOk (env : LookupEnv) (u : String) : Prop :=
  ∃ pids, env.list_projects u = .ok pids ∧
    ∀ p ∈ pids, ∃ raws, env.get_ancestry p = .ok raws

/-- Soundness of the `_retrieve` user loop: the invariant is preserved, a
successful run yields only environment-determined entries, only uncaught
exception kinds abort the run, accumulated users persist, and a fully
resolvable user always ends up in the result map. -/
theorem retrieve_go_sound (env : LookupEnv) (users : List String) :
    ∀ st acc, StInv env st → AccGood env acc →
      StInv env (retrieve_go env st acc users).2 ∧
      (∀ m, (retrieve_go env st acc users).1 = .ok m → AccGood env m) ∧
      (∀ e, (retrieve_go env st acc users).1 = .error e →
        ∃ msg, e = .otherError msg) ∧
      (∀ m u, (retrieve_go env st acc users).1 = .ok m →
        u ∈ acc.map Prod.fst → u ∈ m.map Prod.fst) ∧
      (∀ m u, (retrieve_go env st acc users).1 = .ok m → u ∈ users →
        FullyOk env u → u ∈ m.map Prod.fst) := by
  induction users with
  | nil =>
      intro st acc hinv hacc
      refine ⟨hinv, ?_, ?_, ?_, ?_⟩
      · intro m hm
        injection hm with hm
        subst hm
        exact hacc
      · intro e he
        cases he
      · intro m u hm hu
        injection hm with hm
        subst hm
        exact hu
      · intro m u hm hu
        cases hu
  | cons u0 rest ih =>
      intro st acc hinv hacc
      cases hlp : env.list_projects u0 with
      | error e =>
          have hpr : project_ancestries_by_user env u0 st = (.error e, st) := by
            simp [project_ancestries_by_user, hlp]
          cases e with
          | keyError =>
              have hred : retrieve_go env st acc (u0 :: rest) =
                  retrieve_go env st acc rest := by
                simp [retrieve_go, hpr]
              obtain ⟨h1, h2, h3, h4, h5⟩ := ih st acc hinv hacc
              rw [hred]
              refine ⟨h1, h2, h3, h4, ?_⟩
              intro m u hm hu hfull
              rcases List.mem_cons.mp hu with h' | h'
              · subst h'
                obtain ⟨pids, hpids, _⟩ := hfull
                rw [hlp] at hpids
                cases hpids
              · exact h5 m u hm h' hfull
          | refreshError =>
              have hred : retrieve_go env st acc (u0 :: rest) =
                  retrieve_go env st acc rest := by
                simp [retrieve_go, hpr]
              obtain ⟨h1, h2, h3, h4, h5⟩ := ih st acc hinv hacc
              rw [hred]
              refine ⟨h1, h2, h3, h4, ?_⟩
              intro m u hm hu hfull
              rcases List.mem_cons.mp hu with h' | h'
              · subst h'
                obtain ⟨pids, hpids, _⟩ := hfull
                rw [hlp] at hpids
                cases hpids
              · exact h5 m u hm h' hfull
          | otherError msg =>
              have hred : retrieve_go env st acc (u0 :: rest) =
                  (.error (.otherError msg), st) := by
                simp [retrieve_go, hpr]
              rw [hred]
              refine ⟨hinv, ?_, ?_, ?_, ?_⟩
              · intro m hm
                cases hm
              · intro e he
                injection he with he
                exact ⟨msg, he.symm⟩
              · intro m u hm
                cases hm
              · intro m u hm
                cases hm
      | ok pids =>
          obtain ⟨hinv1, hres1⟩ := resolveProjects_sound env pids st hinv
          cases hrp : resolveProjects env st pids with
          | mk r1 st1 =>
              rw [hrp] at hinv1 hres1
              have hpr : project_ancestries_by_user env u0 st = (r1, st1) := by
                simp [project_ancestries_by_user, hlp, hrp]
              cases r1 with
              | ok chains =>
                  have hred : retrieve_go env st acc (u0 :: rest) =
                      retrieve_go env st1 (insertEntry acc u0 chains) rest := by
                    simp [retrieve_go, hpr]
                  have hacc1 : AccGood env (insertEntry acc u0 chains) := by
                    intro u chains' hm
                    rcases mem_insertEntry acc u0 chains u chains' hm with
                      ⟨h1, h2⟩ | h'
                    · exact ⟨pids, by rw [h1]; exact hlp,
                        by rw [h2]; exact hres1 chains rfl⟩
                    · exact hacc u chains' h'
                  obtain ⟨h1, h2, h3, h4, h5⟩ := ih st1 _ hinv1 hacc1
                  rw [hred]
                  refine ⟨h1, h2, h3, ?_, ?_⟩
                  · intro m u hm hu
                    exact h4 m u hm ((mem_keys_insertEntry acc u0 chains u).mpr
                      (.inr hu))
                  · intro m u hm hu hfull
                    rcases List.mem_cons.mp hu with h' | h'
                    · subst h'
                      exact h4 m u hm ((mem_keys_insertEntry acc u chains u).mpr
                        (.inl rfl))
                    · exact h5 m u hm h' hfull
              | error e =>
                  cases e with
                  | keyError =>
                      have hred : retrieve_go env st acc (u0 :: rest) =
                          retrieve_go env st1 acc rest := by
                        simp [retrieve_go, hpr]
                      obtain ⟨h1, h2, h3, h4, h5⟩ := ih st1 acc hinv1 hacc
                      rw [hred]
                      refine ⟨h1, h2, h3, h4, ?_⟩
                      intro m u hm hu hfull
                      rcases List.mem_cons.mp hu with h' | h'
                      · subst h'
                        obtain ⟨pids', hpids', hga'⟩ := hfull
                        rw [hlp] at hpids'
                        injection hpids' with hpids'
                        subst hpids'
                        obtain ⟨chains, hchains⟩ :=
                          resolveProjects_ok env pids hga' st
                        rw [hrp] at hchains
                        cases hchains
                      · exact h5 m u hm h' hfull
                  | refreshError =>
                      have hred : retrieve_go env st acc (u0 :: rest) =
                          retrieve_go env st1 acc rest := by
                        simp [retrieve_go, hpr]
                      obtain ⟨h1, h2, h3, h4, h5⟩ := ih st1 acc hinv1 hacc
                      rw [hred]
                      refine ⟨h1, h2, h3, h4, ?_⟩
                      intro m u hm hu hfull
                      rcases List.mem_cons.mp hu with h' | h'
                      · subst h'
                        obtain ⟨pids', hpids', hga'⟩ := hfull
                        rw [hlp] at hpids'
                        injection hpids' with hpids'
                        subst hpids'
                        obtain ⟨chains, hchains⟩ :=
                          resolveProjects_ok env pids hga' st
                        rw [hrp] at hchains
                        cases hchains
                      · exact h5 m u hm h' hfull
                  | otherError msg =>
                      have hred : retrieve_go env st acc (u0 :: rest) =
                          (.error (.otherError msg), st1) := by
                        simp [retrieve_go, hpr]
                      rw [hred]
                      refine ⟨hinv1, ?_, ?_, ?_, ?_⟩
                      · intro m hm
                        cases hm
                      · intro e he
                        injection he with he
                        exact ⟨msg, he.symm⟩
                      · intro m u hm
                        cases hm
                      · intro m u hm
                        cases hm

/-! ### Helper lemmas about rule-book construction -/

/-- Unfolding a successful `add_rule`: the definition was processed to its
ancestor, and the book either already had that ancestor (the new rule is
silently dropped) or gained the keyed rule at the end. -/
theorem add_rule_ok_cases (book : Book) (d : RuleDef) (i : Nat) (b1 : Book)
    (h : add_rule book d i = .ok b1) :
    ∃ a, process_rule d i = .ok a ∧
      ((a ∈ book.map Prod.fst ∧ b1 = book) ∨
       (a ∉ book.map Prod.fst ∧ b1 = book ++ [(a, ⟨d.name, i, a⟩)])) := by
  unfold add_rule at h
  cases hp : process_rule d i with
  | error e =>
      rw [hp] at h
      exact absurd h nofun
  | ok a =>
      rw [hp] at h
      by_cases hc : (book.map Prod.fst).contains a = true
      · refine ⟨a, rfl, .inl ⟨List.elem_iff.mp hc, ?_⟩⟩
        replace h :
            (if (book.map Prod.fst).contains a then pure book
             else pure (book ++ [(a, ⟨d.name, i, a⟩)]) :
              Except String Book) = .ok b1 := h
        rw [if_pos hc] at h
        exact (Except.ok.injEq _ _ ▸ h).symm
      · refine ⟨a, rfl, .inr ⟨fun hm => hc (List.elem_iff.mpr hm), ?_⟩⟩
        replace h :
            (if (book.map Prod.fst).contains a then pure book
             else pure (book ++ [(a, ⟨d.name, i, a⟩)]) :
              Except String Book) = .ok b1 := h
        rw [if_neg hc] at h
        exact (Except.ok.injEq _ _ ▸ h).symm

/-- Soundness of the rule-book construction loop, generalized over the
starting book and index: keys stay nodup, old entries persist, every entry
comes from a processed definition keyed by its ancestor and indexed by its
position, and the first definition carrying a fresh ancestor lands in the
book. -/
theorem add_rules_from_sound (ds : List RuleDef) :
    ∀ (book : Book) (i : Nat) (b : Book),
      add_rules_from book i ds = .ok b →
      (book.map Prod.fst).Nodup →
      ((b.map Prod.fst).Nodup ∧
       (∀ e ∈ book, e ∈ b) ∧
       (∀ e ∈ b, e ∈ book ∨ ∃ j d, ds[j]? = some d ∧
         process_rule d (i + j) = .ok e.1 ∧ e.2 = ⟨d.name, i + j, e.1⟩) ∧
       (∀ j d a, ds[j]? = some d → process_rule d (i + j) = .ok a →
         a ∉ book.map Prod.fst →
         (∀ k dk, k < j → ds[k]? = some dk →
           process_rule dk (i + k) ≠ .ok a) →
         (a, ⟨d.name, i + j, a⟩) ∈ b)) := by
  induction ds with
  | nil =>
      intro book i b h hnd
      injection h with h
      subst h
      exact ⟨hnd, fun e he => he, fun e he => .inl he,
        fun j d a hj => nomatch hj⟩
  | cons d0 ds ih =>
      intro book i b h hnd
      rw [add_rules_from] at h
      cases h1 : add_rule book d0 i with
      | error e =>
          rw [h1] at h
          exact absurd h nofun
      | ok b1 =>
          rw [h1] at h
          replace h : add_rules_from b1 (i + 1) ds = .ok b := h
          obtain ⟨a0, hp0, hcase⟩ := add_rule_ok_cases book d0 i b1 h1
          cases hcase with
          | inl hin =>
              obtain ⟨hmem0, hb1⟩ := hin
              subst hb1
              obtain ⟨nd, sub, src, first⟩ := ih b1 (i + 1) b h hnd
              refine ⟨nd, sub, ?_, ?_⟩
              · intro e he
                rcases src e he with h' | ⟨j, d, hj, hpj, he2⟩
                · exact .inl h'
                · refine .inr ⟨j + 1, d, by simpa using hj, ?_, ?_⟩
                  · have : i + (j + 1) = i + 1 + j := by omega
                    rw [this]; exact hpj
                  · have : i + (j + 1) = i + 1 + j := by omega
                    rw [this]; exact he2
              · intro j d a hj hpj hnotin hfirst
                match j, hj with
                | 0, hj =>
                    have hd : d = d0 := by simpa using hj.symm
                    subst hd
                    rw [Nat.add_zero] at hpj
                    rw [hp0] at hpj
                    injection hpj with hpj
                    exact absurd (hpj ▸ hmem0) hnotin
                | j' + 1, hj =>
                    have hj' : ds[j']? = some d := by simpa using hj
                    have hpj' : process_rule d (i + 1 + j') = .ok a := by
                      have : i + 1 + j' = i + (j' + 1) := by omega
                      rw [this]; exact hpj
                    have hfirst' : ∀ k dk, k < j' → ds[k]? = some dk →
                        process_rule dk (i + 1 + k) ≠ .ok a := by
                      intro k dk hk hdk
                      have : i + 1 + k = i + (k + 1) := by omega
                      rw [this]
                      exact hfirst (k + 1) dk (by omega) (by simpa using hdk)
                    have := first j' d a hj' hpj' hnotin hfirst'
                    have heq : i + 1 + j' = i + (j' + 1) := by omega
                    rw [heq] at this
                    exact this
          | inr hnin =>
              obtain ⟨hnin0, hb1⟩ := hnin
              subst hb1
              have hnd1 : (((book ++ [(a0, (⟨d0.name, i, a0⟩ : Rule))]).map Prod.fst)).Nodup := by
                rw [List.map_append]
                simp [List.nodup_append, hnd, hnin0]
              obtain ⟨nd, sub, src, first⟩ :=
                ih (book ++ [(a0, (⟨d0.name, i, a0⟩ : Rule))]) (i + 1) b h hnd1
              have hself : (a0, (⟨d0.name, i, a0⟩ : Rule)) ∈ b :=
                sub _ (List.mem_append_right book (List.mem_singleton.mpr rfl))
              refine ⟨nd, fun e he => sub e (List.mem_append_left _ he), ?_, ?_⟩
              · intro e he
                rcases src e he with h' | ⟨j, d, hj, hpj, he2⟩
                · rcases List.mem_append.mp h' with h'' | h''
                  · exact .inl h''
                  · refine .inr ⟨0, d0, by simp, ?_, ?_⟩
                    · rw [Nat.add_zero]
                      have : e.1 = a0 := by
                        cases List.mem_singleton.mp h''
                        rfl
                      rw [this]; exact hp0
                    · rw [Nat.add_zero]
                      cases List.mem_singleton.mp h''
                      rfl
                · refine .inr ⟨j + 1, d, by simpa using hj, ?_, ?_⟩
                  · have : i + (j + 1) = i + 1 + j := by omega
                    rw [this]; exact hpj
                  · have : i + (j + 1) = i + 1 + j := by omega
                    rw [this]; exact he2
              · intro j d a hj hpj hnotin hfirst
                match j, hj with
                | 0, hj =>
                    have hd : d = d0 := by simpa using hj.symm
                    subst hd
                    rw [Nat.add_zero] at hpj
                    rw [hp0] at hpj
                    injection hpj with hpj
                    subst hpj
                    rw [Nat.add_zero]
                    exact hself
                | j' + 1, hj =>
                    have hj' : ds[j']? = some d := by simpa using hj
                    have hpj' : process_rule d (i + 1 + j') = .ok a := by
                      have : i + 1 + j' = i + (j' + 1) := by omega
                      rw [this]; exact hpj
                    have hne0 : a ≠ a0 := by
                      intro heq
                      subst heq
                      exact hfirst 0 d0 (by omega) (by simp)
                        (by rw [Nat.add_zero]; exact hp0)
                    have hnotin1 :
                        a ∉ (book ++ [(a0, (⟨d0.name, i, a0⟩ : Rule))]).map Prod.fst := by
                      rw [List.map_append]
                      intro hm
                      rcases List.mem_append.mp hm with hm' | hm'
                      · exact hnotin hm'
                      · exact hne0 (by simpa using hm')
                    have hfirst' : ∀ k dk, k < j' → ds[k]? = some dk →
                        process_rule dk (i + 1 + k) ≠ .ok a := by
                      intro k dk hk hdk
                      have : i + 1 + k = i + (k + 1) := by omega
                      rw [this]
                      exact hfirst (k + 1) dk (by omega) (by simpa using hdk)
                    have := first j' d a hj' hpj' hnotin1 hfirst'
                    have heq : i + 1 + j' = i + (j' + 1) := by omega
                    rw [heq] at this
                    exact this

/-! ### Test fixtures (the spec's allow/deny scenario) -/

def orgRes : Resource := ⟨.organization, "567890"⟩

def testRule : Rule := ⟨some "rule0", 0, orgRes⟩

def testBook : Book := [(orgRes, testRule)]

def allowChain : List Resource :=
  [⟨.project, "13579"⟩, ⟨.folder, "24680"⟩, ⟨.organization, "567890"⟩]

def denyChain : List Resource :=
  [⟨.project, "13579"⟩, ⟨.folder, "24680"⟩, ⟨.organization, "1357924680"⟩]

/-! ### Claims -/

/-- Claim C2: during one scanner run, the remote ancestry lookup for any
project id is invoked at most once, and every successfully retrieved
user's chains are the environment-determined resolved chains of its listed
projects — so two identities referencing the same project get structurally
equal chains, the first resolution having populated the scanner-owned
cache. -/
theorem c2_cache_single_lookup (env : LookupEnv) (users : List String) :
    (∀ p, (retrieve env users).2.lookups.count p ≤ 1) ∧
    (∀ m u chains, (retrieve env users).1 = .ok m → (u, chains) ∈ m →
      ∃ pids, env.list_projects u = .ok pids ∧
        chains = pids.map (resolvedChain env)) := by
  obtain ⟨hinv, hok, -, -, -⟩ :=
    retrieve_go_sound env users initState [] (stInv_init env)
      (fun u chains h => nomatch h)
  simp only [retrieve]
  constructor
  · intro p
    have hnd : (retrieve_go env initState [] users).2.lookups.Nodup := by
      rw [hinv.1]
      exact hinv.2.1
    exact List.nodup_iff_count_le_one.mp hnd p
  · intro m u chains hm hmem
    exact hok m hm u chains hmem

/-- The lookup environment used by the scanner-claim witnesses: two users
both listing project `p`, which resolves to a one-element ancestry. -/
def envShared : LookupEnv :=
  { list_projects := fun u =>
      if u = "u1" then .ok ["p"]
      else if u = "u2" then .ok ["p"]
      else .error .refreshError
    get_ancestry := fun p =>
      if p = "p" then .ok [⟨"x", "project"⟩]
      else .error .keyError }

/-- Claim C2 witness: with two users sharing project `p`, the lookup for
`p` happens at most once and user `u2` gets the resolved chain. -/
theorem c2_witness :
    (retrieve envShared ["u1", "u2"]).2.lookups.count "p" ≤ 1 ∧
    ∃ pids, envShared.list_projects "u2" = .ok pids ∧
      [[(⟨.project, "x"⟩ : Resource)]] = pids.map (resolvedChain envShared) :=
  ⟨(c2_cache_single_lookup envShared ["u1", "u2"]).1 "p",
   (c2_cache_single_lookup envShared ["u1", "u2"]).2
     [("u1", [[⟨.project, "x"⟩]]), ("u2", [[⟨.project, "x"⟩]])]
     "u2" [[⟨.project, "x"⟩]] rfl (by simp)⟩

/-- Claim C7: an identity whose resolution raises the credential-refresh
or no-projects (KeyError) condition contributes nothing to the result map
and the user loop continues with the remaining identities; an identity
whose resolution raises any other exception aborts retrieval on the spot
— the remaining identities are never processed and that error is the
run's result; a retrieval that aborts does so only for an uncaught
exception kind; and an identity whose listing and every ancestry fetch
succeed is always present in a successful result map, regardless of other
identities' failures. -/
theorem c7_failure_isolation (env : LookupEnv) (users : List String) :
    (∀ st acc u rest,
      ((project_ancestries_by_user env u st).1 = .error .refreshError ∨
       (project_ancestries_by_user env u st).1 = .error .keyError) →
      retrieve_go env st acc (u :: rest) =
        retrieve_go env (project_ancestries_by_user env u st).2 acc rest) ∧
    (∀ st acc u rest msg,
      (project_ancestries_by_user env u st).1 = .error (.otherError msg) →
      retrieve_go env st acc (u :: rest) =
        (.error (.otherError msg), (project_ancestries_by_user env u st).2)) ∧
    (∀ e, (retrieve env users).1 = .error e → ∃ msg, e = .otherError msg) ∧
    (∀ m u, (retrieve env users).1 = .ok m → u ∈ users → FullyOk env u →
      u ∈ m.map Prod.fst) := by
  obtain ⟨-, -, herr, -, hfull⟩ :=
    retrieve_go_sound env users initState [] (stInv_init env)
      (fun u chains h => nomatch h)
  simp only [retrieve]
  refine ⟨?_, ?_, herr, hfull⟩
  · intro st acc u rest hcase
    cases hpr : project_ancestries_by_user env u st with
    | mk r st' =>
        rw [hpr] at hcase
        cases hcase with
        | inl h' =>
            simp only at h'
            subst h'
            simp [retrieve_go, hpr]
        | inr h' =>
            simp only at h'
            subst h'
            simp [retrieve_go, hpr]
  · intro st acc u rest msg hcase
    cases hpr : project_ancestries_by_user env u st with
    | mk r st' =>
        rw [hpr] at hcase
        simp only at hcase
        subst hcase
        simp [retrieve_go, hpr]

/-- The environment for the C7 witness: `u1` fails credential refresh,
`u2` resolves fully. -/
def envIsolate : LookupEnv :=
  { list_projects := fun u =>
      if u = "u2" then .ok ["p"] else .error .refreshError
    get_ancestry := fun p =>
      if p = "p" then .ok [⟨"x", "project"⟩]
      else .error .keyError }

/-- The environment for the C7 abort instance: `u1` raises an uncaught
exception kind during listing. -/
def envAbort : LookupEnv :=
  { list_projects := fun _ => .error (.otherError "boom")
    get_ancestry := fun _ => .error .keyError }

/-- Claim C7 witness: `u1`'s refresh failure skips it and `u2` is still
retrieved, while an uncaught exception aborts the loop with `u2`
unprocessed. -/
theorem c7_witness :
    (retrieve_go envIsolate initState [] ["u1", "u2"] =
      retrieve_go envIsolate
        (project_ancestries_by_user envIsolate "u1" initState).2 [] ["u2"]) ∧
    (retrieve_go envAbort initState [] ["u1", "u2"] =
      (.error (.otherError "boom"),
       (project_ancestries_by_user envAbort "u1" initState).2)) ∧
    "u2" ∈ ([("u2", [[(⟨.project, "x"⟩ : Resource)]])].map Prod.fst) :=
  ⟨(c7_failure_isolation envIsolate ["u1", "u2"]).1 initState [] "u1" ["u2"]
     (Or.inl rfl),
   (c7_failure_isolation envAbort ["u1", "u2"]).2.1 initState [] "u1" ["u2"]
     "boom" rfl,
   (c7_failure_isolation envIsolate ["u1", "u2"]).2.2.2
     [("u2", [[⟨.project, "x"⟩]])] "u2" rfl (by simp)
     ⟨["p"], rfl, fun p hp => by
        rw [List.mem_singleton.mp hp]
        exact ⟨[⟨"x", "project"⟩], rfl⟩⟩⟩

/-- Claim C9: when the remote ancestry fetch for a previously unseen
project raises, the exception propagates but the cache keeps the empty
entry created before the call; a subsequent resolution request for the
same project — from any identity — returns that empty chain without
issuing a new remote lookup or changing the state. -/
theorem c9_failed_fetch_cached_empty (env : LookupEnv) (st : ScanState)
    (pid : String) (e : PyErr)
    (hmiss : lookupCache st.ancestries pid = none)
    (herr : env.get_ancestry pid = .error e) :
    (resolveProject env st pid).1 = .error e ∧
    lookupCache (resolveProject env st pid).2.ancestries pid = some [] ∧
    (resolveProject env st pid).2.lookups = st.lookups ++ [pid] ∧
    resolveProject env (resolveProject env st pid).2 pid =
      (.ok [], (resolveProject env st pid).2) := by
  have hcached : lookupCache (st.ancestries ++ [(pid, [])]) pid = some [] :=
    lookupCache_append_self st.ancestries pid [] hmiss
  refine ⟨?_, ?_, ?_, ?_⟩
  · simp [resolveProject, hmiss, herr]
  · simp [resolveProject, hmiss, herr, hcached]
  · simp [resolveProject, hmiss, herr]
  · simp [resolveProject, hmiss, herr, hcached]

/-- The environment for the C9 witness: the fetch for `p` always raises. -/
def envPoison : LookupEnv :=
  { list_projects := fun _ => .ok ["p"]
    get_ancestry := fun _ => .error .refreshError }

/-- Claim C9 witness: a failed fetch leaves the empty cache entry behind
and the retry returns it without a second lookup. -/
theorem c9_witness :
    (resolveProject envPoison initState "p").1 = .error .refreshError ∧
    lookupCache (resolveProject envPoison initState "p").2.ancestries "p" =
      some [] ∧
    (resolveProject envPoison initState "p").2.lookups = [] ++ ["p"] ∧
    resolveProject envPoison (resolveProject envPoison initState "p").2 "p" =
      (.ok [], (resolveProject envPoison initState "p").2) :=
  c9_failed_fetch_cached_empty envPoison initState "p" .refreshError rfl rfl

/-- Claim C3 counterexample: the claim says validation raises exactly when
the ancestor string does not wholly match `organizations/<digits>` or
`folders/<digits>`, but `organizations/567890` followed by a newline is
accepted by `validate_ancestor` (Python `$` also matches just before a
trailing newline) although it is not a whole-string match. -/
theorem c3_counterexample :
    validate_ancestor (some "organizations/567890\n") 0 = .ok () ∧
    wholeStringMatch "organizations/567890\n" = false :=
  ⟨rfl, rfl⟩

/-- Claim C3 (amended): `validate_ancestor` succeeds iff the ancestor is
present, non-empty and matched by the anchored pattern with Python `$`
semantics (which also accepts a single trailing newline); every failure
raises `InvalidRulesSchemaError` with one of the two messages citing the
rule's index. -/
theorem c3_validation_amended (ancestor : Option String) (i : Nat) :
    (validate_ancestor ancestor i = .ok () ↔
      ∃ s, ancestor = some s ∧ s ≠ "" ∧ ancestorPatternMatch s = true) ∧
    (∀ msg, validate_ancestor ancestor i = .error msg →
      msg = missingAncestorMsg i ∨ msg = badAncestorMsg i) := by
  cases ancestor with
  | none => simp [validate_ancestor]
  | some a =>
      by_cases ha : a = ""
      · subst ha
        simp [validate_ancestor]
      · by_cases hm : ancestorPatternMatch a
        · simp [validate_ancestor, ha, hm]
        · simp [validate_ancestor, ha, hm]

/-- Claim C3 witness: concrete instances of the amended validation
behavior. -/
theorem c3_witness :
    (validate_ancestor (some "folders/42") 7 = .ok () ↔
      ∃ s, (some "folders/42" : Option String) = some s ∧ s ≠ "" ∧
        ancestorPatternMatch s = true) ∧
    (badAncestorMsg 4 = missingAncestorMsg 4 ∨ badAncestorMsg 4 = badAncestorMsg 4) :=
  ⟨(c3_validation_amended (some "folders/42") 7).1,
   (c3_validation_amended (some "policy/12345") 4).2 (badAncestorMsg 4) rfl⟩

/-- Claim C4: every violation yielded for a member and a non-empty chain is
attributed to the leaf project `chain[0]` and the member: `resource_type`
is the project type, `resource_id` is the leaf's id, `full_name` the
leaf's name, the violation type is `EXTERNAL_PROJECT_ACCESS_VIOLATION`,
`member` the identity, rule name/index come from the violated rule, the
rule-ancestor field holds the rule ancestor's name, and `resource_data` is
the comma-join of all chain element names in order. -/
theorem c4_violation_attribution (book : Book) (user_email : String)
    (leaf : Resource) (rest : List Resource) (vs : List RuleViolation)
    (h : find_policy_violations_book book user_email (leaf :: rest) = .ok vs) :
    ∀ v ∈ vs,
      v.resource_type = "project" ∧
      v.resource_id = leaf.rid ∧
      v.full_name = leaf.name ∧
      v.violation_type = "EXTERNAL_PROJECT_ACCESS_VIOLATION" ∧
      v.member = user_email ∧
      v.resource_data = String.intercalate "," ((leaf :: rest).map Resource.name) ∧
      ∃ r ∈ rules_violated book (leaf :: rest),
        v.rule_name = r.rule_name ∧ v.rule_index = r.rule_index ∧
        v.rule_ancestor = .vstr r.rules.name := by
  rw [find_policy_violations_book, materializeViolations_eq_map] at h
  injection h with h
  intro v hv
  rw [← h] at hv
  obtain ⟨r, hr, rfl⟩ := List.mem_map.mp hv
  exact ⟨rfl, rfl, rfl, rfl, rfl, rfl, r, hr, rfl, rfl, rfl⟩

/-- Claim C4 witness: the spec's deny case evaluated concretely. -/
theorem c4_witness :
    (yieldedViolation testRule "user2@example.com" ⟨.project, "13579"⟩
        denyChain).resource_type = "project" ∧
    (yieldedViolation testRule "user2@example.com" ⟨.project, "13579"⟩
        denyChain).resource_id = (⟨.project, "13579"⟩ : Resource).rid ∧
    (yieldedViolation testRule "user2@example.com" ⟨.project, "13579"⟩
        denyChain).full_name = (⟨.project, "13579"⟩ : Resource).name ∧
    (yieldedViolation testRule "user2@example.com" ⟨.project, "13579"⟩
        denyChain).violation_type = "EXTERNAL_PROJECT_ACCESS_VIOLATION" ∧
    (yieldedViolation testRule "user2@example.com" ⟨.project, "13579"⟩
        denyChain).member = "user2@example.com" ∧
    (yieldedViolation testRule "user2@example.com" ⟨.project, "13579"⟩
        denyChain).resource_data =
      String.intercalate "," (denyChain.map Resource.name) ∧
    ∃ r ∈ rules_violated testBook denyChain,
      (yieldedViolation testRule "user2@example.com" ⟨.project, "13579"⟩
          denyChain).rule_name = r.rule_name ∧
      (yieldedViolation testRule "user2@example.com" ⟨.project, "13579"⟩
          denyChain).rule_index = r.rule_index ∧
      (yieldedViolation testRule "user2@example.com" ⟨.project, "13579"⟩
          denyChain).rule_ancestor = .vstr r.rules.name :=
  c4_violation_attribution testBook "user2@example.com" ⟨.project, "13579"⟩
    [⟨.folder, "24680"⟩, ⟨.organization, "1357924680"⟩]
    [yieldedViolation testRule "user2@example.com" ⟨.project, "13579"⟩ denyChain]
    rfl
    (yieldedViolation testRule "user2@example.com" ⟨.project, "13579"⟩ denyChain)
    (List.mem_singleton.mpr rfl)

/-- Claim C5: a successfully built rule book keys each rule by its
ancestor resource (type and id): keys are pairwise distinct, every entry
stems from the definition at its recorded index with its processed
ancestor as key, and the first definition carrying a given ancestor is the
one kept — a later definition with the same ancestor is silently dropped,
so it never contributes an entry. -/
theorem c5_rulebook_dedup_first_wins (defs : List RuleDef) (b : Book)
    (h : add_rules defs = .ok b) :
    (b.map Prod.fst).Nodup ∧
    (∀ e ∈ b, ∃ j d, defs[j]? = some d ∧ process_rule d j = .ok e.1 ∧
      e.2 = ⟨d.name, j, e.1⟩) ∧
    (∀ j d a, defs[j]? = some d → process_rule d j = .ok a →
      (∀ k dk, k < j → defs[k]? = some dk → process_rule dk k ≠ .ok a) →
      (a, ⟨d.name, j, a⟩) ∈ b) := by
  obtain ⟨nd, _, src, first⟩ :=
    add_rules_from_sound defs [] 0 b h List.nodup_nil
  refine ⟨nd, ?_, ?_⟩
  · intro e he
    rcases src e he with h' | ⟨j, d, hj, hpj, he2⟩
    · cases h'
    · exact ⟨j, d, hj, by simpa using hpj, by simpa using he2⟩
  · intro j d a hj hpj hfirst
    have := first j d a hj (by simpa using hpj) (by simp)
      (fun k dk hk hdk => by simpa using hfirst k dk hk hdk)
    simpa using this

/-- Claim C5 witness: two definitions naming the same ancestor yield a
one-rule book keeping the first. -/
theorem c5_witness :
    add_rules [⟨some "r1", some "organizations/567890"⟩,
               ⟨some "r2", some "organizations/567890"⟩] =
      .ok [(orgRes, ⟨some "r1", 0, orgRes⟩)] ∧
    ([(orgRes, (⟨some "r1", 0, orgRes⟩ : Rule))].map Prod.fst).Nodup ∧
    (orgRes, (⟨some "r1", 0, orgRes⟩ : Rule)) ∈
      [(orgRes, (⟨some "r1", 0, orgRes⟩ : Rule))] :=
  ⟨rfl,
   (c5_rulebook_dedup_first_wins
      [⟨some "r1", some "organizations/567890"⟩,
       ⟨some "r2", some "organizations/567890"⟩]
      [(orgRes, ⟨some "r1", 0, orgRes⟩)] rfl).1,
   (c5_rulebook_dedup_first_wins
      [⟨some "r1", some "organizations/567890"⟩,
       ⟨some "r2", some "organizations/567890"⟩] _ rfl).2.2 0
      ⟨some "r1", some "organizations/567890"⟩ orgRes rfl rfl
      (fun k dk hk hdk => absurd hk (by omega))⟩

/-- Claim C6: the claim says a forced rebuild (or a still-absent rule book)
rebuilds the rule book and evaluates; the code instead calls
`self.build_rule_book()` without the required `global_configs` argument
and raises `TypeError` in both situations, while an existing rule book is
indeed reused unchanged when no rebuild is forced. -/
theorem c6_rebuild_type_error (e : Engine) (user_email : String)
    (chain : List Resource) :
    e.find_policy_violations user_email chain true =
      .error buildRuleBookArityError ∧
    (Engine.mk none).find_policy_violations user_email chain false =
      .error buildRuleBookArityError ∧
    ∀ book, e.rule_book = some book →
      e.find_policy_violations user_email chain false =
        find_policy_violations_book book user_email chain := by
  refine ⟨?_, rfl, ?_⟩
  · cases e with
    | mk rb => cases rb <;> rfl
  · intro book hb
    cases e with
    | mk rb =>
        cases rb with
        | none => exact absurd hb (by simp)
        | some b =>
            cases hb
            rfl

/-- Claim C6 witness: the failing rebuild path and the reuse path on the
concrete test rule book. -/
theorem c6_witness :
    (Engine.mk (some testBook)).find_policy_violations "user1@example.com"
        allowChain true = .error buildRuleBookArityError ∧
    (Engine.mk (some testBook)).find_policy_violations "user1@example.com"
        allowChain false =
      find_policy_violations_book testBook "user1@example.com" allowChain :=
  ⟨(c6_rebuild_type_error (Engine.mk (some testBook)) "user1@example.com"
      allowChain).1,
   (c6_rebuild_type_error (Engine.mk (some testBook)) "user1@example.com"
      allowChain).2.2 testBook rfl⟩

/-- Claim C8: the claim says flattening an engine violation yields the
nested record without error; the engine stores the ancestor's *name
string* in `rule_ancestor`, and `_flatten_violations` evaluates
`violation.rule_ancestor.name`, so flattening any non-empty engine output
raises `AttributeError` instead. -/
theorem c8_flatten_attribute_error (book : Book) (user_email : String)
    (chain : List Resource) (v : RuleViolation) (vs : List RuleViolation)
    (h : find_policy_violations_book book user_email chain = .ok (v :: vs)) :
    flatten_violations (v :: vs) =
      .error "AttributeError: str object has no attribute name" := by
  match chain with
  | [] =>
      rw [find_policy_violations_book] at h
      match hrv : rules_violated book [] with
      | [] =>
          rw [hrv] at h
          simp [materializeViolations] at h
      | r :: rs =>
          rw [hrv, materializeViolations_nil_chain] at h
          exact absurd h nofun
  | leaf :: rest =>
      rw [find_policy_violations_book, materializeViolations_eq_map] at h
      injection h with h
      have hv : v ∈ (rules_violated book (leaf :: rest)).map
          (fun r => yieldedViolation r user_email leaf (leaf :: rest)) := by
        rw [h]; exact List.mem_cons_self v vs
      obtain ⟨r, _, hr⟩ := List.mem_map.mp hv
      rw [← hr]
      rfl

/-- Claim C8 witness: flattening the spec's deny-case violation raises. -/
theorem c8_witness :
    flatten_violations
        [yieldedViolation testRule "user2@example.com" ⟨.project, "13579"⟩ denyChain] =
      .error "AttributeError: str object has no attribute name" :=
  c8_flatten_attribute_error testBook "user2@example.com" denyChain _ [] rfl

/-- Claim C10: a non-empty chain is a precondition of evaluation: consuming
`find_policy_violations` on a non-empty chain cannot fail (the only
subscripted chain element is index 0), while on an empty chain with at
least one rule in the book, materializing the yielded violations raises
IndexError at index 0. -/
theorem c10_nonempty_chain_precondition (book : Book) (user_email : String)
    (chain : List Resource) :
    (chain ≠ [] →
      ∃ vs, find_policy_violations_book book user_email chain = .ok vs) ∧
    (chain = [] → book ≠ [] →
      find_policy_violations_book book user_email chain =
        .error "IndexError: list index out of range") := by
  constructor
  · intro h
    match chain with
    | [] => exact absurd rfl h
    | leaf :: rest =>
        exact ⟨_, by rw [find_policy_violations_book, materializeViolations_eq_map]⟩
  · intro hc hb
    subst hc
    match book with
    | [] => exact absurd rfl hb
    | p :: ps =>
        rw [find_policy_violations_book]
        have hrv : rules_violated (p :: ps) [] = p.2 :: rules_violated ps [] := by
          simp [rules_violated]
        rw [hrv, materializeViolations_nil_chain]

/-- Claim C1: on a non-empty chain, `find_policy_violations` yields
exactly one violation per rule whose ancestor resource appears nowhere in
the chain (type+id match against every element), none for a rule whose
ancestor appears; a chain containing every configured ancestor yields
zero violations, and one containing none of them yields one violation per
rule in the book. -/
theorem c1_one_violation_per_absent_ancestor (book : Book)
    (user_email : String) (chain : List Resource) (h : chain ≠ []) :
    ∃ vs, find_policy_violations_book book user_email chain = .ok vs ∧
      vs.length = (rules_violated book chain).length ∧
      (∀ v ∈ vs, ∃ r ∈ rules_violated book chain,
        Rule.policy_violation r user_email chain = .ok [v]) ∧
      ((∀ a ∈ book.map Prod.fst, a ∈ chain) → vs = []) ∧
      ((∀ a ∈ book.map Prod.fst, a ∉ chain) → vs.length = book.length) := by
  match chain with
  | [] => exact absurd rfl h
  | leaf :: rest =>
      refine ⟨_, by rw [find_policy_violations_book, materializeViolations_eq_map],
        by simp, ?_, ?_, ?_⟩
      · intro v hv
        obtain ⟨r, hr, rfl⟩ := List.mem_map.mp hv
        exact ⟨r, hr, policy_violation_cons r user_email leaf rest⟩
      · intro hall
        have hrv : rules_violated book (leaf :: rest) = [] := by
          rw [rules_violated, List.filter_eq_nil_iff.mpr]
          · rfl
          · intro p hp
            simp [hall p.1 (List.mem_map_of_mem Prod.fst hp)]
        simp [hrv]
      · intro hnone
        have hrv : rules_violated book (leaf :: rest) = book.map Prod.snd := by
          rw [rules_violated, List.filter_eq_self.mpr]
          intro p hp
          simp [hnone p.1 (List.mem_map_of_mem Prod.fst hp)]
        simp [hrv]

/-- Claim C1 witness: the spec's allow case (ancestor present, zero
violations) instantiated through the theorem. -/
theorem c1_witness :
    allowChain ≠ [] ∧
    ∃ vs, find_policy_violations_book testBook "user1@example.com" allowChain =
        .ok vs ∧
      vs.length = (rules_violated testBook allowChain).length ∧
      (∀ v ∈ vs, ∃ r ∈ rules_violated testBook allowChain,
        Rule.policy_violation r "user1@example.com" allowChain = .ok [v]) ∧
      ((∀ a ∈ testBook.map Prod.fst, a ∈ allowChain) → vs = []) ∧
      ((∀ a ∈ testBook.map Prod.fst, a ∉ allowChain) → vs.length = testBook.length) :=
  ⟨by simp [allowChain],
   c1_one_violation_per_absent_ancestor testBook "user1@example.com" allowChain
     (by simp [allowChain])⟩

/-- Claim C10 witness: both branches evaluated on the test rule book. -/
theorem c10_witness :
    (∃ vs, find_policy_violations_book testBook "user2@example.com" denyChain =
      .ok vs) ∧
    find_policy_violations_book testBook "user2@example.com" [] =
      .error "IndexError: list index out of range" :=
  ⟨(c10_nonempty_chain_precondition testBook "user2@example.com" denyChain).1
      (by simp [denyChain]),
   (c10_nonempty_chain_precondition testBook "user2@example.com" []).2 rfl
      (by simp [testBook])⟩

end Forseti
